import Mathlib

/-!
Verification development for a slice of a retargetable compiler toolchain:
an Intel HEX image serializer (`utils/hexfile.py`) and parts of the RISC-V
backend (`arch/riscv/arch.py`): the caller-save call sequence `make_call`,
the argument-location ABI `determine_arg_locations`, and the `__sdiv`
runtime helper.

The Python code is shallowly embedded: byte strings become `List Nat`
(each entry one byte), machine integers become `Nat`/`Int`, exceptions
become `Except Unit`, and hex-file text lines are modelled at the byte
level (the ASCII hex codec `binascii.hexlify` / `bytes.fromhex`, a
bijection between byte strings and their textual form, is treated as the
identity, so a "line" is the byte list that the codec would encode).
-/

namespace Hexfile

/-- Record type constants from `hexfile.py`: `DATA = 0`. -/
def DATA : Nat := 0

/-- `EOF = 1`. -/
def EOF : Nat := 1

/-- `EXTLINADR = 4`. -/
def EXTLINADR : Nat := 4

/-- Embeds `class HexFileRegion`: a base address and the bytes stored there. -/
structure HexFileRegion where
  address : Nat
  data : List Nat
deriving DecidableEq, Repr

/-- Property `HexFileRegion.Size`. -/
def HexFileRegion.Size (r : HexFileRegion) : Nat := r.data.length

/-- Property `HexFileRegion.EndAddress = address + len(data)`. -/
def HexFileRegion.EndAddress (r : HexFileRegion) : Nat := r.address + r.data.length

/-- Embeds `HexFileRegion.__eq__`: compares the `(address, data)` pairs. -/
def regionEq (r1 r2 : HexFileRegion) : Bool :=
  r1.address == r2.address && r1.data == r2.data

/-- Embeds `class HexFile`: a list of regions and a start address. -/
structure HexFile where
  regions : List HexFileRegion
  startAddress : Nat
deriving DecidableEq, Repr

/-- `HexFile.__init__`: no regions, `startAddress = 0`. -/
def emptyHexFile : HexFile := { regions := [], startAddress := 0 }

/-- Embeds `HexFile.__eq__`: equal iff the region lists have the same length
and are pointwise equal; `startAddress` is not compared. -/
def hexFileEq (h1 h2 : HexFile) : Bool :=
  if h1.regions.length ≠ h2.regions.length then false
  else (h1.regions.zip h2.regions).all fun p => regionEq p.1 p.2

/-- Embeds `parseHexLine` (operating on the decoded bytes of the line):
reads the byte count, checks the length field and the checksum, then
splits off the big-endian 16-bit address, the record type, and the data
(`nums[4:-1]`).  Any `HexFileException` (and the `IndexError` on an empty
byte list) is `.error ()`. -/
def parseHexLine (nums : List Nat) : Except Unit (Nat × Nat × List Nat) :=
  match nums with
  | [] => .error ()
  | bytecount :: rest =>
    if rest.length + 1 ≠ bytecount + 5 then .error ()
    else if (bytecount :: rest).sum % 256 ≠ 0 then .error ()
    else
      match rest with
      | a1 :: a2 :: typ :: rest2 => .ok (a1 * 256 + a2, typ, rest2.dropLast)
      | _ => .error ()

/-- Embeds `makeHexLine` (producing the decoded bytes of the line):
byte count, big-endian 16-bit address, type, data, and the two's-complement
checksum `((~sum) + 1) & 0xFF = (256 - sum % 256) % 256`. -/
def makeHexLine (address typ : Nat) (data : List Nat) : List Nat :=
  let nums := data.length :: (address / 256 % 256) :: (address % 256) :: typ :: data
  nums ++ [(256 - nums.sum % 256) % 256]

/-- The loop of the generator `chunks(data, csize=16)`: while data
remains, yield the next `min(remaining, 16)` bytes.  The loop runs at
most `data.length` times; that bound is the structural fuel. -/
def chunksGo : Nat → List Nat → List (List Nat)
  | _, [] => []
  | 0, _ :: _ => []
  | fuel + 1, x :: xs => ((x :: xs).take 16) :: chunksGo fuel ((x :: xs).drop 16)

/-- Embeds `chunks(data, csize=16)`: split a byte string into consecutive
pieces of at most 16 bytes. -/
def chunks (data : List Nat) : List (List Nat) := chunksGo data.length data

/-- The comparison key of `self.regions.sort(key=lambda r: r.address)`. -/
def regionLE (r1 r2 : HexFileRegion) : Prop := r1.address ≤ r2.address

instance : DecidableRel regionLE := fun r1 r2 => Nat.decLe r1.address r2.address

instance : IsTotal HexFileRegion regionLE := ⟨fun r1 r2 => Nat.le_total r1.address r2.address⟩

instance : IsTrans HexFileRegion regionLE := ⟨fun _ _ _ h1 h2 => Nat.le_trans h1 h2⟩

/-- `self.regions.sort(key=lambda r: r.address)`: a stable sort by address
(Python's `list.sort` is stable; insertion sort with `≤` is stable). -/
def sortRegions (l : List HexFileRegion) : List HexFileRegion :=
  l.insertionSort regionLE

/-- One pass of the `for r1, r2 in zip(self.regions[:-1], self.regions[1:])`
loop inside `HexFile.check`.  The `zip` is taken over slice copies of the
region list, so the pass examines every *original* adjacent pair even
while the list is being mutated; when a pair merges (`r1.EndAddress ==
r2.address`), `r1` absorbs `r2`'s data and `r2` is removed from the
current list — recursively, the processed head of the remainder is
dropped.  A pair with `r1.EndAddress > r2.address` raises
`HexFileException('Overlapping regions')`.  Returns the resulting list
and the `change` flag. -/
def checkPass : List HexFileRegion → Except Unit (List HexFileRegion × Bool)
  | [] => .ok ([], false)
  | [r] => .ok ([r], false)
  | r1 :: r2 :: rest =>
    if r1.EndAddress = r2.address then
      match checkPass (r2 :: rest) with
      | .error e => .error e
      | .ok (l, _) => .ok (⟨r1.address, r1.data ++ r2.data⟩ :: l.tail, true)
    else if r2.address < r1.EndAddress then .error ()
    else
      match checkPass (r2 :: rest) with
      | .error e => .error e
      | .ok (l, c) => .ok (r1 :: l, c)

/-- The `while change and len(self.regions) > 1` loop of `HexFile.check`.
Each merging pass shortens the list, so `fuel = length + 1` always
suffices; running out of fuel cannot happen on any reachable input. -/
def checkLoop : Nat → List HexFileRegion → Except Unit (List HexFileRegion)
  | 0, _ => .error ()
  | fuel + 1, l =>
    if l.length ≤ 1 then .ok l
    else
      match checkPass l with
      | .error e => .error e
      | .ok (l2, false) => .ok l2
      | .ok (l2, true) => checkLoop fuel l2

/-- Embeds `HexFile.check`: sort by address, then merge/raise until no
change.  (`checkLoop` restarts with fresh fuel after every pass, matching
the unbounded `while`.) -/
def check (l : List HexFileRegion) : Except Unit (List HexFileRegion) :=
  let sorted := sortRegions l
  checkLoop sorted.length.succ sorted

/-- Embeds `HexFile.addRegion`: append the new region, then `check`. -/
def addRegion (hf : HexFile) (address : Nat) (data : List Nat) : Except Unit HexFile :=
  match check (hf.regions ++ [⟨address, data⟩]) with
  | .error e => .error e
  | .ok l => .ok { hf with regions := l }

/-- Embeds `HexFile.merge`: add every region of `other`. -/
def mergeGo (hf : HexFile) : List HexFileRegion → Except Unit HexFile
  | [] => .ok hf
  | r :: rest =>
    match addRegion hf r.address r.data with
    | .error e => .error e
    | .ok hf2 => mergeGo hf2 rest

/-- `HexFile.merge(other)`. -/
def merge (hf other : HexFile) : Except Unit HexFile := mergeGo hf other.regions

/-- `struct.pack('>H', v)`: big-endian 16-bit value as two bytes. -/
def pack16 (v : Nat) : List Nat := [v / 256 % 256, v % 256]

/-- `struct.unpack('>H', data[0:2])`: `.error` when fewer than two bytes. -/
def unpack16 : List Nat → Except Unit Nat
  | a :: b :: _ => .ok (a * 256 + b)
  | _ => .error ()

/-- `struct.unpack('>I', data[0:4])`: `.error` when fewer than four bytes. -/
def unpack32 : List Nat → Except Unit Nat
  | a :: b :: c :: d :: _ => .ok (((a * 256 + b) * 256 + c) * 256 + d)
  | _ => .error ()

/-- A record as passed between `parseHexLine`/`emit` and the `load` loop. -/
structure HexRecord where
  address : Nat
  typ : Nat
  data : List Nat
deriving DecidableEq, Repr

/-- The chunk loop of `HexFile.save`: before emitting each chunk, if the
running 16-bit cursor has crossed 0x10000, bump the extended linear
address by 0x10000, emit a type-04 record, and reduce the cursor. -/
def saveChunks : Nat → Nat → List (List Nat) → List HexRecord
  | _, _, [] => []
  | ext, address, chunk :: rest =>
    if 0x10000 ≤ address then
      HexRecord.mk 0 EXTLINADR (pack16 ((ext + 0x10000) >>> 16)) ::
      HexRecord.mk (address - 0x10000) DATA chunk ::
      saveChunks (ext + 0x10000) (address - 0x10000 + chunk.length) rest
    else
      HexRecord.mk address DATA chunk ::
      saveChunks ext (address + chunk.length) rest

/-- The per-region part of `HexFile.save`: a type-04 record for the upper
16 bits of the region base (`ext = r.address & 0xFFFF0000`), then the
chunked data records starting at cursor `r.address - ext`. -/
def saveRegion (r : HexFileRegion) : List HexRecord :=
  let ext := r.address &&& 0xFFFF0000
  HexRecord.mk 0 EXTLINADR (pack16 (ext >>> 16)) ::
  saveChunks ext (r.address - ext) (chunks r.data)

/-- Embeds `HexFile.save` at the record level: all regions in order,
terminated by a zero-length EOF record. -/
def save (hf : HexFile) : List HexRecord :=
  (hf.regions.flatMap saveRegion) ++ [HexRecord.mk 0 EOF []]

/-- `HexFile.save` at the line (byte) level: each record through
`makeHexLine`. -/
def saveLines (hf : HexFile) : List (List Nat) :=
  (save hf).map fun r => makeHexLine r.address r.typ r.data

/-- The body of the `for address, typ, data in hexfields(f)` loop of
`HexFile.load`, acting on the state `(self, ext, endOfFile)`. -/
def loadStep : HexFile × Nat × Bool → HexRecord → Except Unit (HexFile × Nat × Bool)
  | (hf, ext, endOfFile), r =>
    if endOfFile then .error ()
    else if r.typ = DATA then
      match addRegion hf (r.address + ext) r.data with
      | .error e => .error e
      | .ok hf2 => .ok (hf2, ext, endOfFile)
    else if r.typ = EXTLINADR then
      match unpack16 r.data with
      | .error e => .error e
      | .ok v => .ok (hf, v <<< 16, endOfFile)
    else if r.typ = EOF then
      if r.data.length ≠ 0 then .error ()
      else .ok (hf, ext, true)
    else if r.typ = 5 then
      match unpack32 r.data with
      | .error e => .error e
      | .ok v => .ok ({ hf with startAddress := v }, ext, endOfFile)
    else .error ()

/-- `HexFile.load` over a list of already-parsed records. -/
def loadRecords : HexFile × Nat × Bool → List HexRecord → Except Unit (HexFile × Nat × Bool)
  | st, [] => .ok st
  | st, r :: rest =>
    match loadStep st r with
    | .error e => .error e
    | .ok st2 => loadRecords st2 rest

/-- `HexFile.load` over lines: parse each line as it is consumed
(`hexfields` is a generator, so parsing and processing interleave), then
run the loop body. -/
def loadLines : HexFile × Nat × Bool → List (List Nat) → Except Unit (HexFile × Nat × Bool)
  | st, [] => .ok st
  | st, line :: rest =>
    match parseHexLine line with
    | .error e => .error e
    | .ok (a, t, d) =>
      match loadStep st (HexRecord.mk a t d) with
      | .error e => .error e
      | .ok st2 => loadLines st2 rest

/-- Embeds `HexFile.load`: start with `ext = 0`, `endOfFile = False`. -/
def load (hf : HexFile) (lines : List (List Nat)) : Except Unit HexFile :=
  match loadLines (hf, 0, false) lines with
  | .error e => .error e
  | .ok st => .ok st.1

/-- The post-`addRegion` region invariant: each region ends strictly
before the next begins (contiguous regions having been merged). -/
def regionGap (r1 r2 : HexFileRegion) : Prop := r1.EndAddress < r2.address

instance : DecidableRel regionGap := fun r1 r2 => Nat.decLt r1.EndAddress r2.address

instance : IsTrans HexFileRegion regionGap :=
  ⟨fun r1 r2 r3 h1 h2 => by
    unfold regionGap HexFileRegion.EndAddress at h1 h2 ⊢
    omega⟩

/-- Two regions overlap when their address intervals intersect. -/
def overlaps (r s : HexFileRegion) : Prop :=
  s.address < r.EndAddress ∧ r.address < s.EndAddress

end Hexfile

namespace Riscv

/-- Register numbers: `SP` is `x2`, `LR` (`ra`) is `x1`. -/
def SP : Nat := 2

/-- The return-address register `ra` (`x1`), called `LR` in the source. -/
def LR : Nat := 1

/-- The instructions `make_call` emits: store word, load word,
add-immediate, and branch-and-link. -/
inductive Instr where
  | Sw (rs2 : Nat) (offset : Int) (rs1 : Nat)
  | Lw (rd : Nat) (offset : Int) (rs1 : Nat)
  | Add (rd rs1 : Nat) (imm : Int)
  | Bl (rd : Nat) (fname : String)
deriving DecidableEq, Repr

/-- The caller-save store loop of `make_call`:
`i = 0; for register in live_regs: yield Sw(register, i, SP); i -= 4`.
Returns the instructions and the final value of `i`. -/
def saveRegs : List Nat → Int → List Instr × Int
  | [], i => ([], i)
  | r :: rest, i =>
    let p := saveRegs rest (i - 4)
    (Instr.Sw r i SP :: p.1, p.2)

/-- The restore loop of `make_call`:
`for register in reversed(live_regs): i += 4; yield Lw(register, i, SP)`
starting from the value of `i` after the `ra` reload.  Returns the
instructions and the final value of `i`. -/
def restoreRegs : List Nat → Int → List Instr × Int
  | [], i => ([], i)
  | r :: rest, i =>
    let p := restoreRegs rest (i + 4)
    (Instr.Lw r (i + 4) SP :: p.1, p.2)

/-- Embeds `RiscvArch.make_call`: store each live register at decreasing
offsets below SP, store `ra`, decrement SP, `bl`, reload `ra`, reload the
live registers in reverse, increment SP. -/
def make_call (live_regs : List Nat) (fname : String) : List Instr :=
  let s := saveRegs live_regs 0
  let r := restoreRegs live_regs.reverse 4
  s.1 ++ [Instr.Sw LR s.2 SP, Instr.Add SP SP (s.2 - 4), Instr.Bl LR fname, Instr.Lw LR 4 SP]
      ++ r.1 ++ [Instr.Add SP SP r.2]

/-- Machine state for the call-sequence semantics: an integer register
file indexed by register number and a word-granular memory indexed by
address. -/
structure MState where
  regs : Nat → Int
  mem : Int → Int

/-- Update one register. -/
def setReg (s : MState) (r : Nat) (v : Int) : MState :=
  { s with regs := fun x => if x = r then v else s.regs x }

/-- Small-step semantics of the four instructions.  The effect of the
called function at `Bl` is the parameter `call` (the callee may do
anything to the state; the theorems constrain it by the ABI: it preserves
SP and the memory above its stack pointer). -/
def exec (call : MState → MState) : Instr → MState → MState
  | .Sw rs2 off rs1, s =>
      { s with mem := fun a => if a = s.regs rs1 + off then s.regs rs2 else s.mem a }
  | .Lw rd off rs1, s => setReg s rd (s.mem (s.regs rs1 + off))
  | .Add rd rs1 imm, s => setReg s rd (s.regs rs1 + imm)
  | .Bl _ _, s => call s

/-- Run a list of instructions in order. -/
def execList (call : MState → MState) : List Instr → MState → MState
  | [], s => s
  | i :: rest, s => execList call rest (exec call i s)

/-- Embeds `RiscvArch.determine_arg_locations`'s loop:
`regs = [R11..R17]; for a in arg_types: r = regs.pop(0); l.append(r);
live_in.add(r)`.  Popping from an empty list raises (`.error`); the
returned pair is `(l, live_in)` where the set `live_in` receives exactly
the popped registers. -/
def argLocsGo {α : Type} : List α → List Nat → Except Unit (List Nat × List Nat)
  | [], _ => .ok ([], [])
  | _ :: _, [] => .error ()
  | _ :: rest, r :: regs =>
    match argLocsGo rest regs with
    | .error e => .error e
    | .ok (l, live) => .ok (r :: l, r :: live)

/-- `RiscvArch.determine_arg_locations(arg_types)` with the ABI register
list `[x11, x12, x13, x14, x15, x16, x17]`. -/
def determine_arg_locations {α : Type} (arg_types : List α) : Except Unit (List Nat × List Nat) :=
  argLocsGo arg_types [11, 12, 13, 14, 15, 16, 17]

/-- Arithmetic shift right by one (`srai x, x, 1`): floor division by 2. -/
def sra1 (x : Int) : Int := Int.fdiv x 2

/-- The blow-up loop of `__sdiv`
(`__sdiv_inc`/`__sdiv_lsl`): shift `x28` left (`slli`) while `x28 < x11`.
Fuel-indexed; `.error` only if the fuel runs out. -/
def sdivBlowUp : Nat → Int → Int → Except Unit Int
  | 0, _, _ => .error ()
  | fuel + 1, x11, x28 =>
    if x28 < x11 then sdivBlowUp fuel x11 (x28 * 2) else .ok x28

/-- The subtraction loop of `__sdiv` (`__sdiv_dec` .. `__skip_check`):
if `x11 ≥ x28` subtract and bump `x14`; then `srai x28, x28, 1`,
`slli x14, x14, 1`; repeat while `x28 > x12` (`bgt`). -/
def sdivLoop : Nat → Int → Int → Int → Int → Except Unit Int
  | 0, _, _, _, _ => .error ()
  | fuel + 1, x11, x12, x14, x28 =>
    let p := if x11 < x28 then (x11, x14) else (x11 - x28, x14 + 1)
    let x28a := sra1 x28
    let x14a := p.2 * 2
    if x12 < x28a then sdivLoop fuel p.1 x12 x14a x28a else .ok x14a

/-- Embeds the `__sdiv` runtime helper returned by
`RiscvArch.get_runtime`: `x14 = 0; x28 = x12;` blow-up loop; subtraction
loop; `mov x10, x14`.  Returns the final value of `x10`. -/
def sdiv (fuel : Nat) (x11 x12 : Int) : Except Unit Int :=
  match sdivBlowUp fuel x11 x12 with
  | .error e => .error e
  | .ok x28 => sdivLoop fuel x11 x12 0 x28

end Riscv

namespace Hexfile

theorem regionEq_true_iff (r1 r2 : HexFileRegion) : regionEq r1 r2 = true ↔ r1 = r2 := by
  cases r1; cases r2
  simp [regionEq, HexFileRegion.mk.injEq]

theorem zip_all_regionEq :
    ∀ l1 l2 : List HexFileRegion, l1.length = l2.length →
      ((((l1.zip l2).all fun p => regionEq p.1 p.2)) = true ↔ l1 = l2) := by
  intro l1
  induction l1 with
  | nil => intro l2 h; cases l2 <;> simp_all
  | cons a t ih =>
    intro l2 h
    cases l2 with
    | nil => simp at h
    | cons b t2 =>
      have := ih t2 (by simpa using h)
      simp [List.zip_cons_cons, regionEq_true_iff, this]

theorem hexFileEq_iff (h1 h2 : HexFile) :
    hexFileEq h1 h2 = true ↔ h1.regions = h2.regions := by
  unfold hexFileEq
  by_cases hl : h1.regions.length = h2.regions.length
  · simp only [hl, ne_eq, not_true_eq_false, if_false]
    exact zip_all_regionEq _ _ hl
  · simp only [ne_eq, hl, not_false_eq_true, if_true]
    exact iff_of_false (by simp) fun h => hl (congrArg List.length h)

theorem parse_make (address typ : Nat) (data : List Nat) (haddr : address < 65536) :
    parseHexLine (makeHexLine address typ data) = .ok (address, typ, data) := by
  unfold makeHexLine parseHexLine
  simp only [List.cons_append, List.sum_cons, List.sum_append, List.sum_cons, List.sum_nil]
  rw [if_neg (by simp only [List.length_append, List.length_cons, List.length_nil]; omega)]
  rw [if_neg (by omega)]
  rw [List.dropLast_concat]
  congr 2
  omega

theorem make_sum (address typ : Nat) (data : List Nat) :
    (makeHexLine address typ data).sum % 256 = 0 := by
  unfold makeHexLine
  simp only [List.sum_append, List.sum_cons, List.sum_nil]
  omega

end Hexfile

/-- C5: for every address below 2^16, every record type, and every payload
of at most 255 bytes, the record produced by `makeHexLine` has byte sum 0
mod 256 (the appended checksum byte is the two's complement of the sum of
the preceding bytes), so `parseHexLine` accepts it and returns the
original fields. -/
theorem C5_checksum_zero (address typ : Nat) (data : List Nat)
    (haddr : address < 65536) (hlen : data.length ≤ 255) :
    (Hexfile.makeHexLine address typ data).sum % 256 = 0 ∧
      Hexfile.parseHexLine (Hexfile.makeHexLine address typ data) =
        .ok (address, typ, data) :=
  ⟨Hexfile.make_sum address typ data, Hexfile.parse_make address typ data haddr⟩

/-- Witness for C5 at address 0x1234, type 0, payload `[1, 2, 3]`. -/
theorem C5_checksum_zero_witness :
    (Hexfile.makeHexLine 0x1234 0 [1, 2, 3]).sum % 256 = 0 ∧
      Hexfile.parseHexLine (Hexfile.makeHexLine 0x1234 0 [1, 2, 3]) =
        .ok (0x1234, 0, [1, 2, 3]) :=
  C5_checksum_zero 0x1234 0 [1, 2, 3] (by decide) (by decide)

/-- C10: `HexFile.__eq__` compares only the region lists; two HexFiles are
equal exactly when their region sequences are equal, regardless of the
`startAddress` values. -/
theorem C10_eq_ignores_start (h1 h2 : Hexfile.HexFile) :
    Hexfile.hexFileEq h1 h2 = true ↔ h1.regions = h2.regions :=
  Hexfile.hexFileEq_iff h1 h2

/-- C3: evaluating the embedded `__sdiv` routine at dividend `x11 = 21`,
divisor `x12 = 4` terminates with 4 in `x10`, not the quotient 5 the spec
requires — the subtraction loop exits one iteration early (`bgt x28, x12`
is strict) while the quotient has already been shifted left, so the final
bit of the quotient is lost. -/
theorem C3_sdiv_21_4 :
    Riscv.sdiv 64 21 4 = .ok 4 ∧ Riscv.sdiv 64 21 4 ≠ .ok 5 := by
  refine ⟨rfl, fun h => ?_⟩
  rw [show Riscv.sdiv 64 21 4 = Except.ok 4 from rfl] at h
  exact absurd (Except.ok.inj h) (by decide)

/-- C4 counterexample: for the HexFile with the single region
`(0x08000000, [1,2,3,4])` and `startAddress = 0x08000000`, `save` emits
exactly three records, of types 04 (extended linear address), 00 (data)
and 01 (EOF) — there is no type-05 Start Linear Address record, contrary
to the claim. -/
theorem C4_counterexample :
    (Hexfile.save
        { regions := [⟨0x08000000, [1, 2, 3, 4]⟩], startAddress := 0x08000000 }).map
      Hexfile.HexRecord.typ = [4, 0, 1] := by
  decide

/-- C4 amended: `save` emits exactly the extended-linear-address record
for upper bits 0x0800, the data record with the four bytes, and the
zero-length EOF record last (with the checksums of the spec's example);
no Start Linear Address record is written — `startAddress` does not
participate in saving. -/
theorem C4_amended :
    Hexfile.saveLines
        { regions := [⟨0x08000000, [1, 2, 3, 4]⟩], startAddress := 0x08000000 } =
      [[0x02, 0x00, 0x00, 0x04, 0x08, 0x00, 0xF2],
       [0x04, 0x00, 0x00, 0x00, 0x01, 0x02, 0x03, 0x04, 0xF2],
       [0x00, 0x00, 0x00, 0x01, 0xFF]] := by
  decide

/-- C8: during `load`, a well-formed EOF record flips the `endOfFile`
flag, so any record following it raises; an EOF record with a non-empty
data field raises immediately. -/
theorem C8_after_eof_raises (hf : Hexfile.HexFile) (ext a a2 : Nat) (d : List Nat)
    (r : Hexfile.HexRecord) (rest rest2 : List Hexfile.HexRecord) (hd : d ≠ []) :
    Hexfile.loadRecords (hf, ext, false) (⟨a, Hexfile.EOF, []⟩ :: r :: rest) = .error () ∧
      Hexfile.loadRecords (hf, ext, false) (⟨a2, Hexfile.EOF, d⟩ :: rest2) = .error () := by
  constructor
  · simp [Hexfile.loadRecords, Hexfile.loadStep, Hexfile.DATA, Hexfile.EOF, Hexfile.EXTLINADR]
  · simp [Hexfile.loadRecords, Hexfile.loadStep, Hexfile.DATA, Hexfile.EOF, Hexfile.EXTLINADR, hd]

/-- Witness for C8: a record after EOF, and an EOF record carrying `[7]`. -/
theorem C8_after_eof_raises_witness :
    Hexfile.loadRecords (Hexfile.emptyHexFile, 0, false)
        (⟨0, Hexfile.EOF, []⟩ :: ⟨0, Hexfile.DATA, [1]⟩ :: []) = .error () ∧
      Hexfile.loadRecords (Hexfile.emptyHexFile, 0, false)
        (⟨0, Hexfile.EOF, [7]⟩ :: []) = .error () :=
  C8_after_eof_raises Hexfile.emptyHexFile 0 0 0 [7] ⟨0, Hexfile.DATA, [1]⟩ [] [] (by decide)

namespace Riscv

theorem argLocsGo_take {α : Type} :
    ∀ (ts : List α) (regs : List Nat), ts.length ≤ regs.length →
      argLocsGo ts regs = .ok (regs.take ts.length, regs.take ts.length) := by
  intro ts
  induction ts with
  | nil => intro regs _; simp [argLocsGo]
  | cons a t ih =>
    intro regs h
    cases regs with
    | nil => simp at h
    | cons r rs =>
      simp only [argLocsGo, ih rs (by simpa using h), List.length_cons, List.take_succ_cons]

end Riscv

/-- C7: for every list of at most seven argument types,
`determine_arg_locations` returns the first `|types|` registers of
`[x11, ..., x17]` in order, and the returned `live_in` set holds exactly
those registers. -/
theorem C7_arg_locations {α : Type} (ts : List α) (h : ts.length ≤ 7) :
    ∃ p, Riscv.determine_arg_locations ts = .ok p ∧
      p.1 = [11, 12, 13, 14, 15, 16, 17].take ts.length ∧
      ∀ r, r ∈ p.2 ↔ r ∈ p.1 := by
  refine ⟨_, Riscv.argLocsGo_take ts [11, 12, 13, 14, 15, 16, 17] (by simpa using h), rfl, ?_⟩
  intro r; exact Iff.rfl

/-- Witness for C7 with three (unit) argument types. -/
theorem C7_arg_locations_witness :
    ∃ p, Riscv.determine_arg_locations ([(), (), ()] : List Unit) = .ok p ∧
      p.1 = [11, 12, 13, 14, 15, 16, 17].take 3 ∧
      ∀ r, r ∈ p.2 ↔ r ∈ p.1 :=
  C7_arg_locations [(), (), ()] (by decide)

namespace Hexfile

theorem chain_gap_pairwise {l : List HexFileRegion} (h : List.Chain' regionGap l) :
    List.Pairwise regionGap l :=
  List.chain'_iff_pairwise.mp h

theorem chain_gap_sorted {l : List HexFileRegion} (h : List.Chain' regionGap l) :
    List.Sorted regionLE l := by
  refine List.Pairwise.imp ?_ (chain_gap_pairwise h)
  intro r1 r2 hg
  unfold regionGap HexFileRegion.EndAddress at hg
  unfold regionLE
  omega

theorem chain_gap_mem_last {rs : List HexFileRegion} {r : HexFileRegion}
    (h : List.Chain' regionGap (rs ++ [r])) :
    ∀ b ∈ rs, regionGap b r := by
  have hp := chain_gap_pairwise h
  rw [List.pairwise_append] at hp
  intro b hb
  exact hp.2.2 b hb r (by simp)

theorem checkPass_noChange :
    ∀ l : List HexFileRegion, List.Chain' regionGap l → checkPass l = .ok (l, false) := by
  intro l
  induction l with
  | nil => intro _; rfl
  | cons r1 t ih =>
    intro h
    cases t with
    | nil => rfl
    | cons r2 rest =>
      have hgap : regionGap r1 r2 := (List.chain'_cons.mp h).1
      have ht : List.Chain' regionGap (r2 :: rest) := (List.chain'_cons.mp h).2
      unfold regionGap at hgap
      simp only [checkPass]
      rw [if_neg (by omega), if_neg (by omega), ih ht]

theorem checkLoop_chain (fuel : Nat) (l : List HexFileRegion) (hfuel : 1 ≤ fuel)
    (hc : List.Chain' regionGap l) : checkLoop fuel l = .ok l := by
  cases fuel with
  | zero => omega
  | succ f =>
    unfold checkLoop
    by_cases hl : l.length ≤ 1
    · rw [if_pos hl]
    · rw [if_neg hl, checkPass_noChange l hc]

theorem checkPass_prefix_frame :
    ∀ (rs : List HexFileRegion) (r : HexFileRegion) (t : List HexFileRegion),
      List.Chain' regionGap (rs ++ [r]) →
      checkPass (rs ++ r :: t) =
        match checkPass (r :: t) with
        | .error e => .error e
        | .ok (l, c) => .ok (rs ++ l, c) := by
  intro rs
  induction rs with
  | nil =>
    intro r t _
    simp only [List.nil_append]
    cases hcp : checkPass (r :: t) with
    | error e => rfl
    | ok p => cases p; rfl
  | cons x rs ih =>
    intro r t h
    cases rs with
    | nil =>
      have hg : regionGap x r := by simpa using h
      unfold regionGap at hg
      simp only [List.cons_append, List.nil_append]
      simp only [checkPass]
      rw [if_neg (by omega), if_neg (by omega)]
    | cons y rs2 =>
      have h2 : List.Chain' regionGap ((y :: rs2) ++ [r]) :=
        (List.chain'_cons.mp (by simpa using h)).2
      have hg : regionGap x y := (List.chain'_cons.mp (by simpa using h)).1
      unfold regionGap at hg
      have hrec := ih r t h2
      simp only [List.cons_append] at hrec ⊢
      simp only [checkPass]
      rw [if_neg (by omega), if_neg (by omega), hrec]
      cases hcp : checkPass (r :: t) with
      | error e => rfl
      | ok p => cases p; rfl

theorem checkPass_merge_last (rs : List HexFileRegion) (a : Nat) (d d2 : List Nat)
    (h : List.Chain' regionGap (rs ++ [⟨a, d⟩])) :
    checkPass (rs ++ [⟨a, d⟩, ⟨a + d.length, d2⟩]) = .ok (rs ++ [⟨a, d ++ d2⟩], true) := by
  have hbase : checkPass [⟨a, d⟩, ⟨a + d.length, d2⟩] =
      .ok ([HexFileRegion.mk a (d ++ d2)], true) := by
    simp [checkPass, HexFileRegion.EndAddress]
  have hframe := checkPass_prefix_frame rs ⟨a, d⟩ [⟨a + d.length, d2⟩] h
  rw [show rs ++ [HexFileRegion.mk a d, HexFileRegion.mk (a + d.length) d2] =
        rs ++ HexFileRegion.mk a d :: [HexFileRegion.mk (a + d.length) d2] from rfl]
  rw [hframe, hbase]

theorem chain_replace_last_data {rs : List HexFileRegion} {a : Nat} {d d2 : List Nat}
    (h : List.Chain' regionGap (rs ++ [⟨a, d⟩])) :
    List.Chain' regionGap (rs ++ [⟨a, d2⟩]) := by
  rw [List.chain'_append] at h ⊢
  refine ⟨h.1, by simp, ?_⟩
  intro x hx y hy
  simp only [List.head?_cons, Option.mem_def, Option.some.injEq] at hy
  have := h.2.2 x hx ⟨a, d⟩ (by simp)
  subst hy
  unfold regionGap at this ⊢
  exact this

theorem addRegion_extend (hf : HexFile) (rs : List HexFileRegion) (a : Nat) (d d2 : List Nat)
    (hregions : hf.regions = rs ++ [⟨a, d⟩])
    (h : List.Chain' regionGap (rs ++ [⟨a, d⟩])) :
    addRegion hf (a + d.length) d2 = .ok { hf with regions := rs ++ [⟨a, d ++ d2⟩] } := by
  have hsorted : List.Sorted regionLE ((rs ++ [⟨a, d⟩]) ++ [⟨a + d.length, d2⟩]) := by
    unfold List.Sorted
    rw [List.pairwise_append]
    refine ⟨chain_gap_sorted h, by simp, ?_⟩
    intro x hx y hy
    simp only [List.mem_singleton] at hy
    subst hy
    rcases List.mem_append.mp hx with hx1 | hx2
    · have := chain_gap_mem_last h x hx1
      unfold regionGap HexFileRegion.EndAddress at this
      unfold regionLE
      simp only at this ⊢
      omega
    · simp only [List.mem_singleton] at hx2
      subst hx2
      unfold regionLE
      simp
  have hchain2 : List.Chain' regionGap (rs ++ [⟨a, d ++ d2⟩]) := chain_replace_last_data h
  unfold addRegion check
  rw [hregions]
  simp only [sortRegions]
  rw [List.Sorted.insertionSort_eq hsorted]
  have hstep : checkLoop
      ((rs ++ [HexFileRegion.mk a d]) ++ [HexFileRegion.mk (a + d.length) d2]).length.succ
      ((rs ++ [HexFileRegion.mk a d]) ++ [HexFileRegion.mk (a + d.length) d2])
      = .ok (rs ++ [⟨a, d ++ d2⟩]) := by
    unfold checkLoop
    rw [if_neg (by simp)]
    rw [show (rs ++ [HexFileRegion.mk a d]) ++ [HexFileRegion.mk (a + d.length) d2]
          = rs ++ [HexFileRegion.mk a d, HexFileRegion.mk (a + d.length) d2] by simp]
    rw [checkPass_merge_last rs a d d2 h]
    exact checkLoop_chain _ _
      (by simp only [List.length_append, List.length_cons, List.length_nil]; omega) hchain2
  rw [hstep]

theorem addRegion_fresh (hf : HexFile) (a : Nat) (d : List Nat)
    (h : List.Chain' regionGap (hf.regions ++ [⟨a, d⟩])) :
    addRegion hf a d = .ok { hf with regions := hf.regions ++ [⟨a, d⟩] } := by
  unfold addRegion check
  simp only [sortRegions]
  rw [List.Sorted.insertionSort_eq (chain_gap_sorted h)]
  rw [checkLoop_chain _ _ (by omega) h]

end Hexfile

namespace Hexfile

theorem checkPass_false_eq :
    ∀ l l2 : List HexFileRegion, checkPass l = .ok (l2, false) →
      l2 = l ∧ List.Chain' regionGap l := by
  intro l
  induction l with
  | nil =>
    intro l2 h
    simp only [checkPass, Except.ok.injEq, Prod.mk.injEq] at h
    exact ⟨h.1.symm, List.chain'_nil⟩
  | cons r t ih =>
    cases t with
    | nil =>
      intro l2 h
      simp only [checkPass, Except.ok.injEq, Prod.mk.injEq] at h
      exact ⟨h.1.symm, List.chain'_singleton r⟩
    | cons r2 rest =>
      intro l2 h
      simp only [checkPass] at h
      by_cases h1 : r.EndAddress = r2.address
      · rw [if_pos h1] at h
        cases hcp : checkPass (r2 :: rest) with
        | error e => rw [hcp] at h; cases h
        | ok p =>
          rw [hcp] at h
          cases p
          simp only [Except.ok.injEq, Prod.mk.injEq] at h
          exact absurd h.2 (by simp)
      · rw [if_neg h1] at h
        by_cases h2 : r2.address < r.EndAddress
        · rw [if_pos h2] at h; cases h
        · rw [if_neg h2] at h
          cases hcp : checkPass (r2 :: rest) with
          | error e => rw [hcp] at h; cases h
          | ok p =>
            rw [hcp] at h
            cases p with
            | mk l3 c =>
              simp only [Except.ok.injEq, Prod.mk.injEq] at h
              obtain ⟨hl2, hc⟩ := h
              subst hc
              obtain ⟨hl3, hchain⟩ := ih l3 hcp
              subst hl3
              refine ⟨hl2.symm, List.chain'_cons.mpr ⟨?_, hchain⟩⟩
              unfold regionGap
              omega

theorem checkLoop_ok_chain :
    ∀ (fuel : Nat) (l l2 : List HexFileRegion), checkLoop fuel l = .ok l2 →
      List.Chain' regionGap l2 := by
  intro fuel
  induction fuel with
  | zero => intro l l2 h; cases h
  | succ f ih =>
    intro l l2 h
    unfold checkLoop at h
    by_cases hl : l.length ≤ 1
    · rw [if_pos hl] at h
      cases h
      cases l with
      | nil => exact List.chain'_nil
      | cons x t =>
        cases t with
        | nil => exact List.chain'_singleton x
        | cons y t2 => simp at hl
    · rw [if_neg hl] at h
      cases hcp : checkPass l with
      | error e => rw [hcp] at h; cases h
      | ok p =>
        rw [hcp] at h
        cases p with
        | mk l3 c =>
          cases c with
          | false =>
            cases h
            obtain ⟨heq, hch⟩ := checkPass_false_eq _ _ hcp
            rw [heq]
            exact hch
          | true => exact ih l3 l2 h

theorem check_ok_chain (l l2 : List HexFileRegion) (h : check l = .ok l2) :
    List.Chain' regionGap l2 := by
  unfold check at h
  exact checkLoop_ok_chain _ _ _ h

theorem addRegion_ok_chain (hf : HexFile) (a : Nat) (d : List Nat) (hf2 : HexFile)
    (h : addRegion hf a d = .ok hf2) : List.Chain' regionGap hf2.regions := by
  unfold addRegion at h
  cases hc : check (hf.regions ++ [⟨a, d⟩]) with
  | error e => rw [hc] at h; cases h
  | ok l =>
    rw [hc] at h
    cases h
    exact check_ok_chain _ _ hc

end Hexfile

namespace Hexfile

theorem loadStep_chain (st st2 : HexFile × Nat × Bool) (r : HexRecord)
    (h : loadStep st r = .ok st2) (hc : List.Chain' regionGap st.1.regions) :
    List.Chain' regionGap st2.1.regions := by
  obtain ⟨hf, ext, eof⟩ := st
  simp only [loadStep] at h
  split at h
  · cases h
  · split at h
    · cases ha : addRegion hf (r.address + ext) r.data with
      | error e => rw [ha] at h; cases h
      | ok hf2 =>
        rw [ha] at h
        cases h
        exact addRegion_ok_chain _ _ _ _ ha
    · split at h
      · cases hu : unpack16 r.data with
        | error e => rw [hu] at h; cases h
        | ok v => rw [hu] at h; cases h; exact hc
      · split at h
        · split at h
          · cases h
          · cases h; exact hc
        · split at h
          · cases hu : unpack32 r.data with
            | error e => rw [hu] at h; cases h
            | ok v => rw [hu] at h; cases h; exact hc
          · cases h

theorem loadLines_chain :
    ∀ (lines : List (List Nat)) (st st2 : HexFile × Nat × Bool),
      List.Chain' regionGap st.1.regions → loadLines st lines = .ok st2 →
      List.Chain' regionGap st2.1.regions := by
  intro lines
  induction lines with
  | nil => intro st st2 hc h; cases h; exact hc
  | cons line rest ih =>
    intro st st2 hc h
    simp only [loadLines] at h
    split at h
    · cases h
    · split at h
      · cases h
      · rename_i stM hs
        exact ih stM st2 (loadStep_chain st stM _ hs hc) h

theorem mergeGo_chain :
    ∀ (l : List HexFileRegion) (hf hf2 : HexFile),
      List.Chain' regionGap hf.regions → mergeGo hf l = .ok hf2 →
      List.Chain' regionGap hf2.regions := by
  intro l
  induction l with
  | nil => intro hf hf2 hc h; cases h; exact hc
  | cons r rest ih =>
    intro hf hf2 hc h
    simp only [mergeGo] at h
    cases ha : addRegion hf r.address r.data with
    | error e => rw [ha] at h; cases h
    | ok hfM =>
      rw [ha] at h
      exact ih hfM hf2 (addRegion_ok_chain _ _ _ _ ha) h

theorem chain_gap_addrLt {l : List HexFileRegion} (h : List.Chain' regionGap l) :
    List.Chain' (fun r1 r2 => r1.address < r2.address) l := by
  refine List.Chain'.imp ?_ h
  intro r1 r2 hg
  unfold regionGap HexFileRegion.EndAddress at hg
  omega

theorem checkPass_error_pair :
    ∀ (A : List HexFileRegion) (x : HexFileRegion) (B : List HexFileRegion)
      (y : HexFileRegion),
      List.Sorted regionLE (A ++ x :: B) → y ∈ A → x.address < y.EndAddress →
      checkPass (A ++ x :: B) = .error () := by
  intro A
  induction A with
  | nil => intro x B y _ hy _; cases hy
  | cons z A2 ih =>
    intro x B y hs hy hov
    rw [List.cons_append, List.sorted_cons] at hs
    obtain ⟨hzall, hs2⟩ := hs
    rcases List.mem_cons.mp hy with hyz | hyA2
    · subst hyz
      cases A2 with
      | nil =>
        simp only [List.nil_append, List.cons_append, checkPass, List.append_eq]
        rw [if_neg (by unfold HexFileRegion.EndAddress at hov ⊢; omega), if_pos hov]
      | cons w A3 =>
        have hwx : regionLE w x :=
          (List.sorted_cons.mp hs2).1 x (List.mem_append.mpr (Or.inr (List.mem_cons_self x B)))
        unfold regionLE at hwx
        simp only [List.cons_append, checkPass, List.append_eq]
        rw [if_neg (by unfold HexFileRegion.EndAddress at hov ⊢; omega),
          if_pos (by unfold HexFileRegion.EndAddress at hov ⊢; omega)]
    · have herr : checkPass (A2 ++ x :: B) = .error () := ih x B y hs2 hyA2 hov
      cases A2 with
      | nil => cases hyA2
      | cons w A3 =>
        rw [List.cons_append] at herr
        simp only [List.cons_append, checkPass, List.append_eq]
        by_cases h1 : z.EndAddress = w.address
        · rw [if_pos h1, herr]
        · rw [if_neg h1]
          by_cases h2 : w.address < z.EndAddress
          · rw [if_pos h2]
          · rw [if_neg h2, herr]

theorem addRegion_overlap_error (hf : HexFile) (r : HexFileRegion) (a : Nat)
    (d : List Nat) (hmem : r ∈ hf.regions) (hov : overlaps r ⟨a, d⟩) :
    addRegion hf a d = .error () := by
  unfold addRegion check
  have hsorted := List.sorted_insertionSort regionLE (hf.regions ++ [⟨a, d⟩])
  have hperm := List.perm_insertionSort regionLE (hf.regions ++ [⟨a, d⟩])
  have hnew : (⟨a, d⟩ : HexFileRegion) ∈
      (hf.regions ++ [(⟨a, d⟩ : HexFileRegion)]).insertionSort regionLE := by
    rw [List.Perm.mem_iff hperm]
    simp
  obtain ⟨S1, S2, hsplit⟩ := List.append_of_mem hnew
  simp only [sortRegions]
  rw [hsplit] at hsorted hperm ⊢
  have hr : r ∈ S1 ++ S2 := by
    have hmid : (S1 ++ (⟨a, d⟩ : HexFileRegion) :: S2).Perm (⟨a, d⟩ :: (S1 ++ S2)) :=
      List.perm_middle
    have hsing : (hf.regions ++ [(⟨a, d⟩ : HexFileRegion)]).Perm (⟨a, d⟩ :: hf.regions) :=
      List.perm_append_singleton _ _
    have h3 : ((⟨a, d⟩ : HexFileRegion) :: (S1 ++ S2)).Perm (⟨a, d⟩ :: hf.regions) :=
      (hmid.symm.trans hperm).trans hsing
    exact h3.cons_inv.mem_iff.mpr hmem
  have herr : checkPass (S1 ++ (⟨a, d⟩ : HexFileRegion) :: S2) = .error () := by
    rcases List.mem_append.mp hr with h1 | h2
    · exact checkPass_error_pair S1 ⟨a, d⟩ S2 r hsorted h1 hov.1
    · obtain ⟨T1, T2, hT⟩ := List.append_of_mem h2
      rw [hT] at hsorted ⊢
      have hre : S1 ++ (⟨a, d⟩ : HexFileRegion) :: (T1 ++ r :: T2) =
          (S1 ++ (⟨a, d⟩ : HexFileRegion) :: T1) ++ r :: T2 := by simp
      rw [hre] at hsorted ⊢
      exact checkPass_error_pair _ r T2 ⟨a, d⟩ hsorted (by simp) hov.2
  have hlen : ¬(S1 ++ (⟨a, d⟩ : HexFileRegion) :: S2).length ≤ 1 := by
    have hleq := hperm.length_eq
    have hpos : 0 < hf.regions.length := List.length_pos.mpr (List.ne_nil_of_mem hmem)
    simp only [List.length_append, List.length_cons] at hleq ⊢
    omega
  have hcl : checkLoop (S1 ++ (⟨a, d⟩ : HexFileRegion) :: S2).length.succ
      (S1 ++ (⟨a, d⟩ : HexFileRegion) :: S2) = .error () := by
    unfold checkLoop
    rw [if_neg hlen, herr]
  rw [hcl]

end Hexfile

/-- C9: whenever `addRegion` succeeds (and hence along every successful
`load` and `merge`, which add regions through it), the resulting region
list is sorted by strictly increasing address and consecutive regions
satisfy `r1.EndAddress < r2.address` — pairwise disjoint with a nonzero
gap, contiguous regions having been merged. -/
theorem C9_region_invariant (hf hf2 : Hexfile.HexFile) (a : Nat) (d : List Nat)
    (hadd : Hexfile.addRegion hf a d = .ok hf2) :
    (List.Chain' Hexfile.regionGap hf2.regions ∧
      List.Chain' (fun r1 r2 => r1.address < r2.address) hf2.regions) ∧
    (∀ (st st2 : Hexfile.HexFile × Nat × Bool) (lines : List (List Nat)),
      List.Chain' Hexfile.regionGap st.1.regions →
      Hexfile.loadLines st lines = .ok st2 →
      List.Chain' Hexfile.regionGap st2.1.regions ∧
        List.Chain' (fun r1 r2 => r1.address < r2.address) st2.1.regions) ∧
    (∀ (h0 other h2 : Hexfile.HexFile),
      List.Chain' Hexfile.regionGap h0.regions →
      Hexfile.merge h0 other = .ok h2 →
      List.Chain' Hexfile.regionGap h2.regions ∧
        List.Chain' (fun r1 r2 => r1.address < r2.address) h2.regions) := by
  refine ⟨?_, ?_, ?_⟩
  · have h := Hexfile.addRegion_ok_chain hf a d hf2 hadd
    exact ⟨h, Hexfile.chain_gap_addrLt h⟩
  · intro st st2 lines hc hl
    have h := Hexfile.loadLines_chain lines st st2 hc hl
    exact ⟨h, Hexfile.chain_gap_addrLt h⟩
  · intro h0 other h2 hc hm
    have h := Hexfile.mergeGo_chain other.regions h0 h2 hc hm
    exact ⟨h, Hexfile.chain_gap_addrLt h⟩

/-- Witness for C9: the invariant after `addRegion(5, [1])` on a fresh file. -/
theorem C9_region_invariant_witness :
    List.Chain' Hexfile.regionGap
        ({ regions := [⟨5, [1]⟩], startAddress := 0 } : Hexfile.HexFile).regions ∧
      List.Chain' (fun r1 r2 : Hexfile.HexFileRegion => r1.address < r2.address)
        ({ regions := [⟨5, [1]⟩], startAddress := 0 } : Hexfile.HexFile).regions :=
  (C9_region_invariant Hexfile.emptyHexFile
    { regions := [⟨5, [1]⟩], startAddress := 0 } 5 [1] rfl).1

/-- C6: adding a region that overlaps an existing region raises the
overlapping-regions error, while a merely adjacent region
(`r1.EndAddress == r2.address`) is merged into one region instead of
raising (shown on `addRegion(0x101, [0x22])` after `(0x100, [0x11])`). -/
theorem C6_overlap_raises (hf : Hexfile.HexFile) (r : Hexfile.HexFileRegion)
    (a : Nat) (d : List Nat)
    (hchain : List.Chain' Hexfile.regionGap hf.regions)
    (hmem : r ∈ hf.regions) (hov : Hexfile.overlaps r ⟨a, d⟩) :
    Hexfile.addRegion hf a d = .error () ∧
      (Hexfile.addRegion Hexfile.emptyHexFile 0x100 [0x11] >>= fun h2 =>
          Hexfile.addRegion h2 0x101 [0x22]) =
        .ok { regions := [⟨0x100, [0x11, 0x22]⟩], startAddress := 0 } :=
  ⟨Hexfile.addRegion_overlap_error hf r a d hmem hov, rfl⟩

/-- Witness for C6: `addRegion(0x100, [0, 0])` after `addRegion(0x100, [0x11])`
overlaps and raises. -/
theorem C6_overlap_raises_witness :
    Hexfile.addRegion { regions := [⟨0x100, [0x11]⟩], startAddress := 0 } 0x100 [0x00, 0x00] =
        .error () ∧
      (Hexfile.addRegion Hexfile.emptyHexFile 0x100 [0x11] >>= fun h2 =>
          Hexfile.addRegion h2 0x101 [0x22]) =
        .ok { regions := [⟨0x100, [0x11, 0x22]⟩], startAddress := 0 } :=
  C6_overlap_raises { regions := [⟨0x100, [0x11]⟩], startAddress := 0 } ⟨0x100, [0x11]⟩
    0x100 [0x00, 0x00] (by simp) (by simp) (by exact ⟨by decide, by decide⟩)

namespace Riscv

theorem execList_append (call : MState → MState) :
    ∀ (l1 l2 : List Instr) (s : MState),
      execList call (l1 ++ l2) s = execList call l2 (execList call l1 s) := by
  intro l1
  induction l1 with
  | nil => intro l2 s; rfl
  | cons i t ih =>
    intro l2 s
    simp only [List.cons_append, execList]
    exact ih l2 _

theorem saveRegs_snd : ∀ (l : List Nat) (i : Int),
    (saveRegs l i).2 = i - 4 * (l.length : Int) := by
  intro l
  induction l with
  | nil => intro i; simp [saveRegs]
  | cons r t ih =>
    intro i
    simp only [saveRegs, ih, List.length_cons]
    push_cast
    ring

theorem restoreRegs_snd : ∀ (l : List Nat) (i : Int),
    (restoreRegs l i).2 = i + 4 * (l.length : Int) := by
  intro l
  induction l with
  | nil => intro i; simp [restoreRegs]
  | cons r t ih =>
    intro i
    simp only [restoreRegs, ih, List.length_cons]
    push_cast
    ring

theorem saves_regs (call : MState → MState) :
    ∀ (l : List Nat) (i : Int) (s : MState),
      (execList call (saveRegs l i).1 s).regs = s.regs := by
  intro l
  induction l with
  | nil => intro i s; rfl
  | cons r t ih =>
    intro i s
    simp only [saveRegs, execList]
    rw [ih]
    rfl

theorem saves_mem_other (call : MState → MState) :
    ∀ (l : List Nat) (i : Int) (s : MState) (a : Int),
      (∀ k : Nat, k < l.length → a ≠ s.regs SP + i - 4 * (k : Int)) →
      (execList call (saveRegs l i).1 s).mem a = s.mem a := by
  intro l
  induction l with
  | nil => intro i s a _; rfl
  | cons r t ih =>
    intro i s a ha
    simp only [saveRegs, execList]
    have hrest : ∀ k : Nat, k < t.length →
        a ≠ (exec call (Instr.Sw r i SP) s).regs SP + (i - 4) - 4 * (k : Int) := by
      intro k hk
      have h := ha (k + 1) (by simp only [List.length_cons]; omega)
      have hregs : (exec call (Instr.Sw r i SP) s).regs = s.regs := rfl
      rw [hregs]
      push_cast at h ⊢
      omega
    rw [ih (i - 4) _ a hrest]
    show (if a = s.regs SP + i then s.regs r else s.mem a) = s.mem a
    rw [if_neg (by have h0 := ha 0 (by simp); push_cast at h0; omega)]

theorem saves_mem_slot (call : MState → MState) :
    ∀ (l : List Nat) (i : Int) (s : MState) (k : Nat) (hk : k < l.length),
      (execList call (saveRegs l i).1 s).mem (s.regs SP + i - 4 * (k : Int)) =
        s.regs (l.get ⟨k, hk⟩) := by
  intro l
  induction l with
  | nil => intro i s k hk; simp at hk
  | cons r t ih =>
    intro i s k hk
    simp only [saveRegs, execList]
    cases k with
    | zero =>
      have hother : ∀ k2 : Nat, k2 < t.length →
          s.regs SP + i - 4 * ((0 : Nat) : Int) ≠
            (exec call (Instr.Sw r i SP) s).regs SP + (i - 4) - 4 * (k2 : Int) := by
        intro k2 hk2
        have hregs : (exec call (Instr.Sw r i SP) s).regs = s.regs := rfl
        rw [hregs]
        push_cast
        omega
      rw [saves_mem_other call t (i - 4) _ _ hother]
      show (if s.regs SP + i - 4 * ((0 : Nat) : Int) = s.regs SP + i
          then s.regs r else s.mem _) = _
      rw [if_pos (by push_cast; ring)]
      rfl
    | succ k2 =>
      have hk2 : k2 < t.length := by simpa using hk
      have hstep := ih (i - 4) (exec call (Instr.Sw r i SP) s) k2 hk2
      have hregs : (exec call (Instr.Sw r i SP) s).regs = s.regs := rfl
      rw [hregs] at hstep
      have haddr : s.regs SP + (i - 4) - 4 * ((k2 : Nat) : Int) =
          s.regs SP + i - 4 * ((k2 + 1 : Nat) : Int) := by
        push_cast
        ring
      rw [haddr] at hstep
      rw [hstep]
      rfl

theorem loads_effect (call : MState → MState) :
    ∀ (l : List Nat) (j : Int) (t : MState) (v : Nat → Int),
      SP ∉ l →
      (∀ (p : Nat) (hp : p < l.length),
        t.mem (t.regs SP + j + 4 * ((p : Int) + 1)) = v (l.get ⟨p, hp⟩)) →
      (∀ x, (execList call (restoreRegs l j).1 t).regs x =
          if x ∈ l then v x else t.regs x) ∧
        (execList call (restoreRegs l j).1 t).mem = t.mem := by
  intro l
  induction l with
  | nil =>
    intro j t v _ _
    exact ⟨fun x => by simp [restoreRegs, execList], rfl⟩
  | cons r rest ih =>
    intro j t v hsp hmem
    have hsp2 : SP ∉ rest := fun hc => hsp (List.mem_cons_of_mem _ hc)
    have hner : SP ≠ r := fun he => hsp (by rw [he]; exact List.mem_cons_self _ _)
    simp only [restoreRegs, execList]
    have ht1regs : ∀ x, (exec call (Instr.Lw r (j + 4) SP) t).regs x =
        if x = r then t.mem (t.regs SP + (j + 4)) else t.regs x := fun x => rfl
    have ht1mem : (exec call (Instr.Lw r (j + 4) SP) t).mem = t.mem := rfl
    have ht1sp : (exec call (Instr.Lw r (j + 4) SP) t).regs SP = t.regs SP := by
      rw [ht1regs, if_neg hner]
    have hmemrest : ∀ (p : Nat) (hp : p < rest.length),
        (exec call (Instr.Lw r (j + 4) SP) t).mem
            ((exec call (Instr.Lw r (j + 4) SP) t).regs SP + (j + 4) + 4 * ((p : Int) + 1)) =
          v (rest.get ⟨p, hp⟩) := by
      intro p hp
      rw [ht1mem, ht1sp]
      have hp1 : p + 1 < (r :: rest).length := by simp only [List.length_cons]; omega
      have h := hmem (p + 1) hp1
      have haddr : t.regs SP + j + 4 * (((p + 1 : Nat) : Int) + 1) =
          t.regs SP + (j + 4) + 4 * ((p : Int) + 1) := by
        push_cast
        ring
      rw [haddr] at h
      rw [h]
      rfl
    obtain ⟨hre, hme⟩ := ih (j + 4) (exec call (Instr.Lw r (j + 4) SP) t) v hsp2 hmemrest
    constructor
    · intro x
      rw [hre x]
      by_cases hx1 : x ∈ rest
      · rw [if_pos hx1, if_pos (List.mem_cons_of_mem _ hx1)]
      · rw [if_neg hx1, ht1regs x]
        by_cases hx2 : x = r
        · subst hx2
          rw [if_pos rfl, if_pos (List.mem_cons_self _ _)]
          have h := hmem 0 (by simp)
          have haddr : t.regs SP + j + 4 * (((0 : Nat) : Int) + 1) =
              t.regs SP + (j + 4) := by push_cast; ring
          rw [haddr] at h
          rw [h]
          rfl
        · rw [if_neg hx2, if_neg (by simp [hx2, hx1])]
    · rw [hme, ht1mem]

end Riscv

namespace Riscv

theorem make_call_effect (live : List Nat) (fname : String) (call : MState → MState)
    (s : MState) (hsp : SP ∉ live)
    (hcall_sp : ∀ t, (call t).regs SP = t.regs SP)
    (hcall_mem : ∀ t a, t.regs SP < a → (call t).mem a = t.mem a) :
    (execList call (make_call live fname) s).regs SP = s.regs SP ∧
      ∀ r ∈ live, (execList call (make_call live fname) s).regs r = s.regs r := by
  have hdec : make_call live fname =
      (saveRegs live 0).1 ++ ([Instr.Sw LR (saveRegs live 0).2 SP] ++
        ([Instr.Add SP SP ((saveRegs live 0).2 - 4)] ++ ([Instr.Bl LR fname] ++
          ([Instr.Lw LR 4 SP] ++ ((restoreRegs live.reverse 4).1 ++
            [Instr.Add SP SP (restoreRegs live.reverse 4).2]))))) := by
    simp [make_call]
  rw [hdec, execList_append, execList_append, execList_append, execList_append,
    execList_append, execList_append]
  simp only [execList]
  set s1 := execList call (saveRegs live 0).1 s with hs1
  set s2 := exec call (Instr.Sw LR (saveRegs live 0).2 SP) s1 with hs2
  set s3 := exec call (Instr.Add SP SP ((saveRegs live 0).2 - 4)) s2 with hs3
  set s4 := exec call (Instr.Bl LR fname) s3 with hs4
  set s5 := exec call (Instr.Lw LR 4 SP) s4 with hs5
  set s6 := execList call (restoreRegs live.reverse 4).1 s5 with hs6
  have hn := saveRegs_snd live 0
  have h1regs : s1.regs = s.regs := saves_regs call live 0 s
  have h2regs : s2.regs = s.regs := h1regs
  have h2mem : ∀ a : Int, a ≠ s.regs SP + (saveRegs live 0).2 → s2.mem a = s1.mem a := by
    intro a ha
    show (if a = s1.regs SP + (saveRegs live 0).2 then s1.regs LR else s1.mem a) = s1.mem a
    rw [h1regs, if_neg ha]
  have h3sp : s3.regs SP = s.regs SP + ((saveRegs live 0).2 - 4) := by
    show (if SP = SP then s2.regs SP + ((saveRegs live 0).2 - 4) else s2.regs SP) = _
    rw [if_pos rfl, h2regs]
  have h3mem : s3.mem = s2.mem := rfl
  have h4sp : s4.regs SP = s3.regs SP := hcall_sp s3
  have h4mem : ∀ a : Int, s3.regs SP < a → s4.mem a = s3.mem a := hcall_mem s3
  have h5sp : s5.regs SP = s4.regs SP := by
    show (if SP = LR then s4.mem (s4.regs SP + 4) else s4.regs SP) = s4.regs SP
    rw [if_neg (by decide)]
  have h5mem : s5.mem = s4.mem := rfl
  have h5spv : s5.regs SP = s.regs SP - 4 * (live.length : Int) - 4 := by
    rw [h5sp, h4sp, h3sp, hn]
    ring
  have hslot5 : ∀ (k : Nat) (hk : k < live.length),
      s5.mem (s.regs SP - 4 * (k : Int)) = s.regs (live.get ⟨k, hk⟩) := by
    intro k hk
    rw [h5mem]
    rw [h4mem _ (by rw [h3sp, hn]; omega)]
    rw [h3mem]
    rw [h2mem _ (by rw [hn]; omega)]
    have haddr : s.regs SP - 4 * (k : Int) = s.regs SP + 0 - 4 * (k : Int) := by ring
    rw [haddr, hs1]
    exact saves_mem_slot call live 0 s k hk
  have hsprev : SP ∉ live.reverse := fun hc => hsp (List.mem_reverse.mp hc)
  have hmem5 : ∀ (p : Nat) (hp : p < live.reverse.length),
      s5.mem (s5.regs SP + 4 + 4 * ((p : Int) + 1)) = s.regs (live.reverse.get ⟨p, hp⟩) := by
    intro p hp
    have hplen : p < live.length := by simpa using hp
    have hk : live.length - 1 - p < live.length := by omega
    have hgetrev : live.reverse.get ⟨p, hp⟩ = live.get ⟨live.length - 1 - p, hk⟩ := by
      simp [List.get_eq_getElem, List.getElem_reverse]
    rw [hgetrev]
    have haddr : s5.regs SP + 4 + 4 * ((p : Int) + 1) =
        s.regs SP - 4 * ((live.length - 1 - p : Nat) : Int) := by
      rw [h5spv]
      omega
    rw [haddr]
    exact hslot5 _ hk
  obtain ⟨hregs6, hmem6⟩ := loads_effect call live.reverse 4 s5 s.regs hsprev hmem5
  rw [← hs6] at hregs6
  constructor
  · show (if SP = SP then s6.regs SP + (restoreRegs live.reverse 4).2 else s6.regs SP)
        = s.regs SP
    rw [if_pos rfl, hregs6 SP, if_neg hsprev, h5spv, restoreRegs_snd,
      List.length_reverse]
    ring
  · intro r hr
    have hrne : r ≠ SP := fun he => hsp (he ▸ hr)
    show (if r = SP then s6.regs SP + (restoreRegs live.reverse 4).2 else s6.regs r)
        = s.regs r
    rw [if_neg hrne, hregs6 r, if_pos (List.mem_reverse.mpr hr)]

end Riscv

/-- C2: `make_call` emits the caller-save stores (each live register, then
`ra`) below SP, decrements SP by `4 * (n + 1)` for `n` live registers, the
`bl`, the reload of `ra` and of each live register from the slot it was
stored to, and an SP increment of exactly `4 * (n + 1)`; consequently,
for any callee that obeys the ABI (preserves SP and memory above its
stack pointer), SP and every live caller-save register have their
pre-call values after the sequence. -/
theorem C2_make_call (live : List Nat) (fname : String)
    (call : Riscv.MState → Riscv.MState) (s : Riscv.MState)
    (hsp : Riscv.SP ∉ live)
    (hcall_sp : ∀ t, (call t).regs Riscv.SP = t.regs Riscv.SP)
    (hcall_mem : ∀ t a, t.regs Riscv.SP < a → (call t).mem a = t.mem a) :
    Riscv.make_call live fname =
      (Riscv.saveRegs live 0).1 ++
        [Riscv.Instr.Sw Riscv.LR (-(4 * (live.length : Int))) Riscv.SP,
         Riscv.Instr.Add Riscv.SP Riscv.SP (-(4 * ((live.length : Int) + 1))),
         Riscv.Instr.Bl Riscv.LR fname,
         Riscv.Instr.Lw Riscv.LR 4 Riscv.SP] ++
      (Riscv.restoreRegs live.reverse 4).1 ++
        [Riscv.Instr.Add Riscv.SP Riscv.SP (4 * ((live.length : Int) + 1))] ∧
    (Riscv.execList call (Riscv.make_call live fname) s).regs Riscv.SP =
      s.regs Riscv.SP ∧
    ∀ r ∈ live,
      (Riscv.execList call (Riscv.make_call live fname) s).regs r = s.regs r := by
  refine ⟨?_, Riscv.make_call_effect live fname call s hsp hcall_sp hcall_mem⟩
  have e2 : (Riscv.saveRegs live 0).2 - 4 = -(4 * ((live.length : Int) + 1)) := by
    rw [Riscv.saveRegs_snd]
    ring
  have e1 : (Riscv.saveRegs live 0).2 = -(4 * (live.length : Int)) := by
    rw [Riscv.saveRegs_snd]
    ring
  have e3 : (Riscv.restoreRegs live.reverse 4).2 = 4 * ((live.length : Int) + 1) := by
    rw [Riscv.restoreRegs_snd, List.length_reverse]
    ring
  simp only [Riscv.make_call]
  rw [e2, e1, e3]

/-- Witness for C2 with two live registers (`x5`, `x6`), the identity
callee, and the register file `x ↦ x`: SP (= 2) and both live registers
return to their initial values; the SP decrement for n = 2 is 12. -/
theorem C2_make_call_witness :
    (Riscv.execList id (Riscv.make_call [5, 6] "foo")
        { regs := fun x => (x : Int), mem := fun _ => 0 }).regs Riscv.SP =
      ({ regs := fun x => (x : Int), mem := fun _ => 0 } : Riscv.MState).regs Riscv.SP ∧
    ∀ r ∈ [5, 6],
      (Riscv.execList id (Riscv.make_call [5, 6] "foo")
          { regs := fun x => (x : Int), mem := fun _ => 0 }).regs r =
        ({ regs := fun x => (x : Int), mem := fun _ => 0 } : Riscv.MState).regs r :=
  (C2_make_call [5, 6] "foo" id { regs := fun x => (x : Int), mem := fun _ => 0 }
    (by decide) (fun t => rfl) (fun t a h => rfl)).2

namespace Hexfile

theorem chunksGo_flatten : ∀ (fuel : Nat) (d : List Nat), d.length ≤ fuel →
    (chunksGo fuel d).flatten = d := by
  intro fuel
  induction fuel with
  | zero =>
    intro d h
    cases d with
    | nil => rfl
    | cons x xs => simp at h
  | succ f ih =>
    intro d h
    cases d with
    | nil => rfl
    | cons x xs =>
      simp only [chunksGo, List.flatten_cons]
      rw [ih ((x :: xs).drop 16) (by simp only [List.length_drop]; omega)]
      exact List.take_append_drop 16 (x :: xs)

theorem chunks_flatten (d : List Nat) : (chunks d).flatten = d :=
  chunksGo_flatten d.length d le_rfl

theorem chunksGo_mem : ∀ (fuel : Nat) (d c : List Nat),
    c ∈ chunksGo fuel d → c ≠ [] ∧ c.length ≤ 16 := by
  intro fuel
  induction fuel with
  | zero =>
    intro d c hc
    cases d <;> simp [chunksGo] at hc
  | succ f ih =>
    intro d c hc
    cases d with
    | nil => simp [chunksGo] at hc
    | cons x xs =>
      simp only [chunksGo, List.mem_cons] at hc
      rcases hc with hc | hc
      · subst hc
        refine ⟨by simp, ?_⟩
        simp only [List.length_take]
        omega
      · exact ih _ c hc

theorem chunks_mem (d c : List Nat) (hc : c ∈ chunks d) : c ≠ [] ∧ c.length ≤ 16 :=
  chunksGo_mem d.length d c hc

theorem pack16_unpack16 (v : Nat) (hv : v < 65536) : unpack16 (pack16 v) = .ok v := by
  simp only [pack16, unpack16, Except.ok.injEq]
  omega

theorem land_mask (a : Nat) : a &&& 0xFFFF0000 = a / 65536 % 65536 * 65536 := by
  have h1 : a / 65536 % 65536 * 65536 = ((a >>> 16) % 2 ^ 16) <<< 16 := by
    rw [Nat.shiftLeft_eq, Nat.shiftRight_eq_div_pow]
    norm_num
  rw [h1]
  apply Nat.eq_of_testBit_eq
  intro i
  rw [Nat.testBit_land, Nat.testBit_shiftLeft, Nat.testBit_mod_two_pow, Nat.testBit_shiftRight]
  have hm : (0xFFFF0000 : Nat) = (2 ^ 16 - 1) <<< 16 := by
    rw [Nat.shiftLeft_eq]
    norm_num
  rw [hm, Nat.testBit_shiftLeft, Nat.testBit_two_pow_sub_one]
  by_cases h16 : 16 ≤ i
  · rw [show 16 + (i - 16) = i by omega]
    by_cases h32 : i - 16 < 16
    · simp [h16, h32]
    · simp [h16, h32]
  · simp [h16, ge_iff_le]

theorem loadRecords_cons (st st2 : HexFile × Nat × Bool) (r : HexRecord)
    (rest : List HexRecord) (h : loadStep st r = .ok st2) :
    loadRecords st (r :: rest) = loadRecords st2 rest := by
  simp only [loadRecords, h]

theorem loadRecords_append (l1 l2 : List HexRecord) :
    ∀ st, loadRecords st (l1 ++ l2) =
      match loadRecords st l1 with
      | .error e => .error e
      | .ok st2 => loadRecords st2 l2 := by
  induction l1 with
  | nil => intro st; rfl
  | cons r t ih =>
    intro st
    simp only [List.cons_append, loadRecords]
    cases loadStep st r with
    | error e => rfl
    | ok st2 => exact ih st2

end Hexfile

namespace Hexfile

theorem loadRecords_saveChunks :
    ∀ (cs : List (List Nat)) (ext address : Nat) (hf : HexFile)
      (rs : List HexFileRegion) (a : Nat) (dacc : List Nat),
      hf.regions = rs ++ [⟨a, dacc⟩] →
      List.Chain' regionGap (rs ++ [⟨a, dacc⟩]) →
      (∀ c ∈ cs, c ≠ [] ∧ c.length ≤ 16) →
      ext % 65536 = 0 →
      ext + address = a + dacc.length →
      address < 65536 + 16 →
      a + dacc.length + cs.flatten.length ≤ 4294967296 →
      ∃ ext2, loadRecords (hf, ext, false) (saveChunks ext address cs) =
        .ok ({ hf with regions := rs ++ [⟨a, dacc ++ cs.flatten⟩] }, ext2, false) := by
  intro cs
  induction cs with
  | nil =>
    intro ext address hf rs a dacc hreg _ _ _ _ _ _
    refine ⟨ext, ?_⟩
    simp only [saveChunks, loadRecords, List.flatten_nil, List.append_nil]
    rw [← hreg]
  | cons c cs ih =>
    intro ext address hf rs a dacc hreg hch hcs hextm habs haddr hbound
    obtain ⟨hcne, hclen⟩ := hcs c (List.mem_cons_self _ _)
    have hc1 : 1 ≤ c.length := List.length_pos.mpr hcne
    have hcs2 : ∀ x ∈ cs, x ≠ [] ∧ x.length ≤ 16 :=
      fun x hx => hcs x (List.mem_cons_of_mem _ hx)
    have hblen : c.length + cs.flatten.length = (c :: cs).flatten.length := by
      simp [List.flatten_cons]
    by_cases hbig : 65536 ≤ address
    · have hshape : saveChunks ext address (c :: cs) =
          HexRecord.mk 0 EXTLINADR (pack16 ((ext + 65536) >>> 16)) ::
            HexRecord.mk (address - 65536) DATA c ::
            saveChunks (ext + 65536) (address - 65536 + c.length) cs := by
        simp only [saveChunks]
        rw [if_pos (by omega)]
      have hv : (ext + 65536) >>> 16 < 65536 := by
        rw [Nat.shiftRight_eq_div_pow]
        omega
      have hstep1 : loadStep (hf, ext, false)
          (HexRecord.mk 0 EXTLINADR (pack16 ((ext + 65536) >>> 16))) =
          .ok (hf, ((ext + 65536) >>> 16) <<< 16, false) := by
        simp [loadStep, DATA, EXTLINADR, pack16_unpack16 _ hv]
      have hext2 : ((ext + 65536) >>> 16) <<< 16 = ext + 65536 := by
        rw [Nat.shiftRight_eq_div_pow, Nat.shiftLeft_eq]
        omega
      have hAR := addRegion_extend hf rs a dacc c hreg hch
      have hstep2 : loadStep (hf, ext + 65536, false)
          (HexRecord.mk (address - 65536) DATA c) =
          .ok ({ hf with regions := rs ++ [⟨a, dacc ++ c⟩] }, ext + 65536, false) := by
        have haddr2 : address - 65536 + (ext + 65536) = a + dacc.length := by omega
        simp [loadStep, DATA, haddr2, hAR]
      obtain ⟨ext2, hrec⟩ := ih (ext + 65536) (address - 65536 + c.length)
        { hf with regions := rs ++ [⟨a, dacc ++ c⟩] } rs a (dacc ++ c) rfl
        (chain_replace_last_data hch) hcs2 (by omega)
        (by simp only [List.length_append]; omega) (by omega)
        (by simp only [List.length_append]; omega)
      refine ⟨ext2, ?_⟩
      rw [hshape, loadRecords_cons _ _ _ _ hstep1, hext2,
        loadRecords_cons _ _ _ _ hstep2, hrec]
      simp [List.flatten_cons, List.append_assoc]
    · have hshape : saveChunks ext address (c :: cs) =
          HexRecord.mk address DATA c ::
            saveChunks ext (address + c.length) cs := by
        simp only [saveChunks]
        rw [if_neg (by omega)]
      have hAR := addRegion_extend hf rs a dacc c hreg hch
      have hstep2 : loadStep (hf, ext, false) (HexRecord.mk address DATA c) =
          .ok ({ hf with regions := rs ++ [⟨a, dacc ++ c⟩] }, ext, false) := by
        have haddr2 : address + ext = a + dacc.length := by omega
        simp [loadStep, DATA, haddr2, hAR]
      obtain ⟨ext2, hrec⟩ := ih ext (address + c.length)
        { hf with regions := rs ++ [⟨a, dacc ++ c⟩] } rs a (dacc ++ c) rfl
        (chain_replace_last_data hch) hcs2 hextm
        (by simp only [List.length_append]; omega) (by omega)
        (by simp only [List.length_append]; omega)
      refine ⟨ext2, ?_⟩
      rw [hshape, loadRecords_cons _ _ _ _ hstep2, hrec]
      simp [List.flatten_cons, List.append_assoc]

end Hexfile

namespace Hexfile

theorem loadRecords_saveRegion (hf : HexFile) (rs : List HexFileRegion)
    (r : HexFileRegion) (ext0 : Nat)
    (hregions : hf.regions = rs)
    (hchain : List.Chain' regionGap (rs ++ [r]))
    (hne : r.data ≠ [])
    (hend : r.EndAddress ≤ 4294967296) :
    ∃ ext2, loadRecords (hf, ext0, false) (saveRegion r) =
      .ok ({ hf with regions := rs ++ [r] }, ext2, false) := by
  have hdpos : 1 ≤ r.data.length := List.length_pos.mpr hne
  have haddrlt : r.address < 4294967296 := by
    unfold HexFileRegion.EndAddress at hend
    omega
  have hextv : r.address &&& 0xFFFF0000 = r.address / 65536 * 65536 := by
    rw [land_mask]
    omega
  have hextmod : (r.address &&& 0xFFFF0000) % 65536 = 0 := by rw [hextv]; omega
  have hextle : r.address &&& 0xFFFF0000 ≤ r.address := by rw [hextv]; omega
  have hlowlt : r.address - (r.address &&& 0xFFFF0000) < 65536 := by rw [hextv]; omega
  have hexthi : (r.address &&& 0xFFFF0000) >>> 16 < 65536 := by
    rw [Nat.shiftRight_eq_div_pow, hextv]
    omega
  have hextback : ((r.address &&& 0xFFFF0000) >>> 16) <<< 16 = r.address &&& 0xFFFF0000 := by
    rw [Nat.shiftRight_eq_div_pow, Nat.shiftLeft_eq, hextv]
    omega
  have hstep1 : loadStep (hf, ext0, false)
      (HexRecord.mk 0 EXTLINADR (pack16 ((r.address &&& 0xFFFF0000) >>> 16))) =
      .ok (hf, ((r.address &&& 0xFFFF0000) >>> 16) <<< 16, false) := by
    simp [loadStep, DATA, EXTLINADR, pack16_unpack16 _ hexthi]
  cases hch : chunks r.data with
  | nil =>
    exfalso
    have hfl := chunks_flatten r.data
    rw [hch] at hfl
    simp only [List.flatten_nil] at hfl
    exact hne hfl.symm
  | cons c cs =>
    have hflat : c ++ cs.flatten = r.data := by
      have hfl := chunks_flatten r.data
      rwa [hch, List.flatten_cons] at hfl
    have hcmem : ∀ x ∈ c :: cs, x ≠ [] ∧ x.length ≤ 16 := by
      intro x hx
      exact chunks_mem r.data x (by rw [hch]; exact hx)
    obtain ⟨hcne, hclen⟩ := hcmem c (List.mem_cons_self _ _)
    have hflen : c.length + cs.flatten.length = r.data.length := by
      have := congrArg List.length hflat
      simpa [List.length_append] using this
    have hshape : saveRegion r =
        HexRecord.mk 0 EXTLINADR (pack16 ((r.address &&& 0xFFFF0000) >>> 16)) ::
          saveChunks (r.address &&& 0xFFFF0000)
            (r.address - (r.address &&& 0xFFFF0000)) (c :: cs) := by
      simp only [saveRegion, hch]
    have hshape2 : saveChunks (r.address &&& 0xFFFF0000)
        (r.address - (r.address &&& 0xFFFF0000)) (c :: cs) =
        HexRecord.mk (r.address - (r.address &&& 0xFFFF0000)) DATA c ::
          saveChunks (r.address &&& 0xFFFF0000)
            (r.address - (r.address &&& 0xFFFF0000) + c.length) cs := by
      simp only [saveChunks]
      rw [if_neg (by omega)]
    have hchainr : List.Chain' regionGap (rs ++ [⟨r.address, r.data⟩]) := hchain
    have hchainc : List.Chain' regionGap (rs ++ [⟨r.address, c⟩]) :=
      chain_replace_last_data hchainr
    have hstep2 : loadStep (hf, r.address &&& 0xFFFF0000, false)
        (HexRecord.mk (r.address - (r.address &&& 0xFFFF0000)) DATA c) =
        .ok ({ hf with regions := rs ++ [⟨r.address, c⟩] },
          r.address &&& 0xFFFF0000, false) := by
      have haddr2 : r.address - (r.address &&& 0xFFFF0000) + (r.address &&& 0xFFFF0000) =
          r.address := by omega
      have hAF : addRegion hf r.address c =
          .ok { hf with regions := rs ++ [⟨r.address, c⟩] } := by
        have h := addRegion_fresh hf r.address c (by rw [hregions]; exact hchainc)
        rwa [hregions] at h
      simp [loadStep, DATA, haddr2, hAF]
    obtain ⟨ext2, hrec⟩ := loadRecords_saveChunks cs (r.address &&& 0xFFFF0000)
      (r.address - (r.address &&& 0xFFFF0000) + c.length)
      { hf with regions := rs ++ [⟨r.address, c⟩] } rs r.address c rfl hchainc
      (fun x hx => hcmem x (List.mem_cons_of_mem _ hx)) hextmod (by omega)
      (by omega)
      (by unfold HexFileRegion.EndAddress at hend; omega)
    refine ⟨ext2, ?_⟩
    rw [hshape, loadRecords_cons _ _ _ _ hstep1, hextback, hshape2,
      loadRecords_cons _ _ _ _ hstep2, hrec, hflat]

theorem loadRecords_saveRegions :
    ∀ (rest : List HexFileRegion) (hf : HexFile) (rs : List HexFileRegion) (ext0 : Nat),
      hf.regions = rs →
      List.Chain' regionGap (rs ++ rest) →
      (∀ r ∈ rest, r.data ≠ [] ∧ r.EndAddress ≤ 4294967296) →
      ∃ ext2, loadRecords (hf, ext0, false) (rest.flatMap saveRegion) =
        .ok ({ hf with regions := rs ++ rest }, ext2, false) := by
  intro rest
  induction rest with
  | nil =>
    intro hf rs ext0 hreg _ _
    refine ⟨ext0, ?_⟩
    simp only [List.flatMap_nil, loadRecords, List.append_nil]
    rw [← hreg]
  | cons r rest ih =>
    intro hf rs ext0 hreg hchain hdata
    have hchain1 : List.Chain' regionGap (rs ++ [r]) := by
      have hp := List.chain'_iff_pairwise.mp hchain
      have hsub : (rs ++ [r]).Sublist (rs ++ r :: rest) := by
        refine List.Sublist.append_left ?_ rs
        exact List.Sublist.cons₂ r (List.nil_sublist rest)
      exact List.chain'_iff_pairwise.mpr (hp.sublist hsub)
    obtain ⟨hrne, hrend⟩ := hdata r (List.mem_cons_self _ _)
    obtain ⟨extM, hfirst⟩ := loadRecords_saveRegion hf rs r ext0 hreg hchain1 hrne hrend
    obtain ⟨ext2, hrest⟩ := ih { hf with regions := rs ++ [r] } (rs ++ [r]) extM rfl
      (by simpa [List.append_assoc] using hchain)
      (fun x hx => hdata x (List.mem_cons_of_mem _ hx))
    refine ⟨ext2, ?_⟩
    simp only [List.flatMap_cons]
    rw [loadRecords_append, hfirst]
    dsimp only
    rw [hrest]
    simp [List.append_assoc]

theorem loadRecords_save (hf : HexFile)
    (hchain : List.Chain' regionGap hf.regions)
    (hdata : ∀ r ∈ hf.regions, r.data ≠ [] ∧ r.EndAddress ≤ 4294967296) :
    ∃ ext2, loadRecords (emptyHexFile, 0, false) (save hf) =
      .ok ({ regions := hf.regions, startAddress := 0 }, ext2, true) := by
  obtain ⟨ext2, hmain⟩ := loadRecords_saveRegions hf.regions emptyHexFile [] 0 rfl
    (by simpa using hchain) hdata
  refine ⟨ext2, ?_⟩
  unfold save
  rw [loadRecords_append, hmain]
  simp [loadRecords, loadStep, DATA, EXTLINADR, EOF, emptyHexFile]

end Hexfile

namespace Hexfile

theorem saveChunks_valid :
    ∀ (cs : List (List Nat)) (ext address : Nat),
      (∀ c ∈ cs, c.length ≤ 16) →
      address < 65536 + 16 →
      ∀ q ∈ saveChunks ext address cs, q.address < 65536 := by
  intro cs
  induction cs with
  | nil => intro ext address _ _ q hq; simp [saveChunks] at hq
  | cons c cs ih =>
    intro ext address hcs haddr q hq
    have hclen := hcs c (List.mem_cons_self _ _)
    have hcs2 : ∀ x ∈ cs, x.length ≤ 16 := fun x hx => hcs x (List.mem_cons_of_mem _ hx)
    simp only [saveChunks] at hq
    by_cases hbig : 65536 ≤ address
    · rw [if_pos (by omega)] at hq
      simp only [List.mem_cons] at hq
      rcases hq with h | h | h
      · subst h; simp
      · subst h; simp; omega
      · exact ih (ext + 65536) (address - 65536 + c.length) hcs2 (by omega) q h
    · rw [if_neg (by omega)] at hq
      simp only [List.mem_cons] at hq
      rcases hq with h | h
      · subst h; simp; omega
      · exact ih ext (address + c.length) hcs2 (by omega) q h

theorem saveRegion_valid (r : HexFileRegion) (hne : r.data ≠ [])
    (hend : r.EndAddress ≤ 4294967296) :
    ∀ q ∈ saveRegion r, q.address < 65536 := by
  have hdpos : 1 ≤ r.data.length := List.length_pos.mpr hne
  have haddrlt : r.address < 4294967296 := by
    unfold HexFileRegion.EndAddress at hend
    omega
  have hextv : r.address &&& 0xFFFF0000 = r.address / 65536 * 65536 := by
    rw [land_mask]
    omega
  have hlowlt : r.address - (r.address &&& 0xFFFF0000) < 65536 := by rw [hextv]; omega
  intro q hq
  simp only [saveRegion, List.mem_cons] at hq
  rcases hq with h | h
  · subst h; simp
  · exact saveChunks_valid (chunks r.data) _ _
      (fun c hc => (chunks_mem _ _ hc).2) (by omega) q h

theorem save_valid (hf : HexFile)
    (hdata : ∀ r ∈ hf.regions, r.data ≠ [] ∧ r.EndAddress ≤ 4294967296) :
    ∀ q ∈ save hf, q.address < 65536 := by
  intro q hq
  unfold save at hq
  rw [List.mem_append] at hq
  rcases hq with h | h
  · rw [List.mem_flatMap] at h
    obtain ⟨r, hr, hqr⟩ := h
    obtain ⟨h1, h2⟩ := hdata r hr
    exact saveRegion_valid r h1 h2 q hqr
  · simp only [List.mem_singleton] at h
    subst h
    simp

theorem loadLines_eq_loadRecords :
    ∀ (records : List HexRecord) (st : HexFile × Nat × Bool),
      (∀ q ∈ records, q.address < 65536) →
      loadLines st (records.map fun q => makeHexLine q.address q.typ q.data) =
        loadRecords st records := by
  intro records
  induction records with
  | nil => intro st _; rfl
  | cons q rest ih =>
    intro st hv
    have hq := hv q (List.mem_cons_self _ _)
    simp only [List.map_cons, loadLines, loadRecords]
    rw [parse_make q.address q.typ q.data hq]
    dsimp only
    have heta : HexRecord.mk q.address q.typ q.data = q := rfl
    rw [heta]
    cases hs : loadStep st q with
    | error e => rfl
    | ok st2 => exact ih st2 (fun x hx => hv x (List.mem_cons_of_mem _ hx))

end Hexfile

/-- C1 counterexample: the empty-data region `(5, b"")` is successfully
added (no overlap), yet saving it emits no data record at all, so
re-loading yields a HexFile with no regions, which `__eq__` rejects: the
round trip fails for this reachable HexFile. -/
theorem C1_counterexample :
    Hexfile.addRegion Hexfile.emptyHexFile 5 [] =
        .ok { regions := [⟨5, []⟩], startAddress := 0 } ∧
      Hexfile.load Hexfile.emptyHexFile
          (Hexfile.saveLines { regions := [⟨5, []⟩], startAddress := 0 }) =
        .ok { regions := [], startAddress := 0 } ∧
      Hexfile.hexFileEq { regions := [], startAddress := 0 }
          { regions := [⟨5, []⟩], startAddress := 0 } = false :=
  ⟨rfl, rfl, rfl⟩

/-- C1 amended: for every HexFile whose regions satisfy the
post-`addRegion` invariant (pairwise disjoint with gaps), with nonempty
data and end addresses at most 2^32, saving to a stream and loading the
stream into a fresh HexFile yields a HexFile equal to it (under
`__eq__`), including when a region spans a 64 KiB boundary and the data
is split across extended-linear-address records. -/
theorem C1_roundtrip (x : Hexfile.HexFile)
    (hchain : List.Chain' Hexfile.regionGap x.regions)
    (hdata : ∀ r ∈ x.regions, r.data ≠ [] ∧ r.EndAddress ≤ 2 ^ 32) :
    ∃ y, Hexfile.load Hexfile.emptyHexFile (Hexfile.saveLines x) = .ok y ∧
      Hexfile.hexFileEq y x = true := by
  have hdata2 : ∀ r ∈ x.regions, r.data ≠ [] ∧ r.EndAddress ≤ 4294967296 := by
    intro r hr
    obtain ⟨h1, h2⟩ := hdata r hr
    exact ⟨h1, by omega⟩
  obtain ⟨ext2, hrec⟩ := Hexfile.loadRecords_save x hchain hdata2
  refine ⟨{ regions := x.regions, startAddress := 0 }, ?_, ?_⟩
  · unfold Hexfile.load Hexfile.saveLines
    rw [Hexfile.loadLines_eq_loadRecords (Hexfile.save x) _
      (Hexfile.save_valid x hdata2), hrec]
  · exact (Hexfile.hexFileEq_iff _ _).mpr rfl

/-- Witness for C1 on a region spanning the 64 KiB boundary: 32 bytes
starting at 0xFFF0, so the data is split across two extended linear
address records. -/
theorem C1_roundtrip_witness :
    ∃ y, Hexfile.load Hexfile.emptyHexFile
        (Hexfile.saveLines
          { regions := [⟨0xFFF0, List.replicate 32 7⟩], startAddress := 0 }) = .ok y ∧
      Hexfile.hexFileEq y
        { regions := [⟨0xFFF0, List.replicate 32 7⟩], startAddress := 0 } = true :=
  C1_roundtrip { regions := [⟨0xFFF0, List.replicate 32 7⟩], startAddress := 0 }
    (by simp)
    (by
      intro r hr
      simp only [List.mem_singleton] at hr
      subst hr
      exact ⟨by simp, by decide⟩)
